import Mathlib

/-!
# Verification of the commodity-price scraper core

Shallow embedding of `src/scraper.py` (class `CommodityScraper`): the
name-cleaning and matching functions, the price-cell extraction strategies,
the price parser, and the table scanner, together with proofs of the
specification claims.

Modelling conventions:
* Python strings are Lean `String`s; the character classes of the regexes
  (`\w`, `\s`, `\d`) are modelled over their ASCII fragments.
* Python `float` values are modelled as exact rationals (`ℚ`); the numeric
  strings the parser accepts (digits with at most one decimal point) denote
  exact decimal fractions.
* A BeautifulSoup subtree is the inductive `Forest` (first-child /
  next-sibling form); a table cell is represented by the forest of its
  children, which is everything `find(...)`, `find_all(...)` and
  `get_text(strip=True)` on the cell ever inspect (`find` does not match
  the cell itself).
* Python exceptions that escape a `try` are modelled with `Except`:
  `parse_price` receives the value produced by `extract_price_from_cell`
  (which, as in the source, may be `None`, a `Tag`, or a `str`) and raises
  `TypeError` when `re.sub` is applied to a non-string, exactly as the
  Python `re.sub` does; the `except (ValueError, AttributeError)` of the
  source does not catch that `TypeError`, while the outer
  `except Exception` of `scrape_commodities` does.
-/

/-- ASCII fragment of Python's `str.strip()` / regex `\s` whitespace class. -/
def pyIsSpace (c : Char) : Bool :=
  c = ' ' || c = '\t' || c = '\n' || c = '\x0d' || c = '\x0b' || c = '\x0c'

/-- ASCII fragment of the regex `\w` class: letters, digits, underscore. -/
def pyIsWord (c : Char) : Bool :=
  c.isAlpha || c.isDigit || c = '_'

/-- The characters kept by `re.sub(r'[^\w\s-]', '', name)`. -/
def keepNameChar (c : Char) : Bool :=
  pyIsWord c || pyIsSpace c || c = '-'

/-- `true` for characters that are not the line breaks split on by
`re.split(r'\n|\r', raw_name)`. -/
def notLineBreak (c : Char) : Bool :=
  !(c = '\n' || c = '\x0d')

/-- Python `str.strip()` on a character list: drop whitespace from both ends. -/
def pyTrim (l : List Char) : List Char :=
  List.rdropWhile pyIsSpace (l.dropWhile pyIsSpace)

/-- ASCII `str.lower()` on one character. -/
def asciiLower (c : Char) : Char :=
  if 'A' ≤ c ∧ c ≤ 'Z' then Char.ofNat (c.toNat + 32) else c

/-- ASCII fragment of Python `str.lower()`. -/
def pyLower (s : String) : String :=
  ⟨s.data.map asciiLower⟩

/-- Python's `needle in hay` substring test on character lists. -/
def pyContains (needle : List Char) : List Char → Bool
  | [] => needle.isEmpty
  | c :: rest => List.isPrefixOf needle (c :: rest) || pyContains needle rest

/-- Python `sub in s` on strings. -/
def pyIn (sub s : String) : Bool :=
  pyContains sub.data s.data

/-- A BeautifulSoup subtree in first-child / next-sibling form: a forest is
a sequence of siblings, each either a text node (`NavigableString`) with its
string, or an element (`Tag`) with tag name, optional `id` attribute,
optional `class` attribute (the raw attribute string), and a forest of
children. -/
inductive Forest where
  | nil
  | textCons (s : String) (rest : Forest)
  | elemCons (tag : String) (idAttr : Option String) (classAttr : Option String)
      (children : Forest) (rest : Forest)
  deriving DecidableEq, Repr

/-- An element (`Tag`) as returned by `find` / `find_all`: its tag name,
attributes and children. -/
structure Elem where
  tag : String
  idAttr : Option String
  classAttr : Option String
  children : Forest
  deriving DecidableEq, Repr

/-- All element descendants of a forest, each element followed by its own
subtree, in document (pre-)order: the search space of `cell.find(...)` and
`cell.find_all(...)`. -/
def descF : Forest → List Elem
  | .nil => []
  | .textCons _ rest => descF rest
  | .elemCons t i c cs rest => ⟨t, i, c, cs⟩ :: (descF cs ++ descF rest)

/-- `get_text(strip=True)` over a forest: each text node's content is
stripped and the pieces are concatenated, in document order. -/
def getTextF : Forest → List Char
  | .nil => []
  | .textCons s rest => pyTrim s.data ++ getTextF rest
  | .elemCons _ _ _ cs rest => getTextF cs ++ getTextF rest

/-- `cell.get_text(strip=True)` as a `String` (a cell is the forest of its
children). -/
def getTextStrip (cell : Forest) : String :=
  ⟨getTextF cell⟩

/-- `e.get_text(strip=True)` for an element returned by `find`/`find_all`. -/
def elemText (e : Elem) : String :=
  ⟨getTextF e.children⟩

/-- Python truthiness of a `Tag`: `Tag.__len__` counts its contents, so an
element is truthy exactly when it has children. -/
def elemTruthy (e : Elem) : Bool :=
  match e.children with
  | .nil => false
  | _ => true

/-- Does this element match `find(id='p')`? -/
def hasIdP (e : Elem) : Bool :=
  e.idAttr = some "p"

/-- Does this element match `find(class_=re.compile('price', re.I))`? The
regex search succeeds when `"price"` occurs, case-insensitively, in the
class attribute (which must be present). -/
def hasClassPrice (e : Elem) : Bool :=
  match e.classAttr with
  | some cl => pyContains "price".data (pyLower cl).data
  | none => false

/-- Does this element match `find_all(t)` for tag name `t`? -/
def hasTag (t : String) (e : Elem) : Bool :=
  e.tag = t

/-- `cell.find(id='p')`: first descendant element with `id="p"`. -/
def findByIdP (cell : Forest) : Option Elem :=
  (descF cell).find? hasIdP

/-- `cell.find(class_=re.compile('price', re.I))`. -/
def findByClassPrice (cell : Forest) : Option Elem :=
  (descF cell).find? hasClassPrice

/-- `cell.find_all(t)`: all descendant elements with tag name `t`. -/
def findAllTag (t : String) (cell : Forest) : List Elem :=
  (descF cell).filter (hasTag t)

example : pyLower "COBALT Ore-2" = "cobalt ore-2" := by decide
example : pyIn "cobalt" "cobalt ore" = true := by decide
example : pyTrim "  a b  ".data = "a b".data := by decide
example :
    getTextStrip (.textCons " 1,234.50 " .nil) = "1,234.50" := by decide

/-- A Python value that `extract_price_from_cell` can produce: strategies 1
and 2 return the matched `Tag` itself, strategies 3 and 4 return a `str`. -/
inductive PyVal where
  | tag (e : Elem)
  | str (s : String)
  deriving DecidableEq, Repr

/-- Python truthiness of an extraction result. -/
def pyTruthy : PyVal → Bool
  | .tag e => elemTruthy e
  | .str s => !s.isEmpty

/-- Truthiness of an optional strategy result (`None` is falsy). -/
def optTruthy : Option PyVal → Bool
  | none => false
  | some v => pyTruthy v

/-- The loop of `extract_price_from_cell`: return the first truthy strategy
result, `None` if every strategy produced a falsy value. -/
def firstTruthy : List (Option PyVal) → Option PyVal
  | [] => none
  | r :: rest =>
    match r with
    | some v => if pyTruthy v then some v else firstTruthy rest
    | none => firstTruthy rest

/-- Strategy 3 of the source: the stripped text of the first descendant
among all `span`s, then all `div`s, then all `strong`s whose stripped text
contains a digit (`re.search(r'\d+', ...)`). -/
def strategyThree (cell : Forest) : Option String :=
  ((findAllTag "span" cell ++ findAllTag "div" cell ++ findAllTag "strong" cell).find?
      (fun e => (elemText e).data.any Char.isDigit)).map elemText

/-- `CommodityScraper.extract_price_from_cell`: try the four strategies in
order and return the first truthy result. -/
def extract_price_from_cell (cell : Forest) : Option PyVal :=
  firstTruthy
    [(findByIdP cell).map .tag,
     (findByClassPrice cell).map .tag,
     (strategyThree cell).map .str,
     some (.str (getTextStrip cell))]

/-- The value of a non-empty digit string (most significant digit first). -/
def digitsVal (l : List Char) : ℕ :=
  l.foldl (fun n c => 10 * n + (c.toNat - 48)) 0

/-- Python `float(s)` restricted to the strings `parse_price` can feed it:
strings of digits and periods. It succeeds when there is at least one digit
and at most one period, and denotes the exact decimal fraction; otherwise it
raises `ValueError`, modelled as `none`. The model is exact-valued: it does
not round to binary64, and it does not model the saturation of CPython
`float` to `inf` on strings denoting values beyond the largest finite
double, `(2 ^ 53 - 1) * 2 ^ 971` — that divergence between model and
program is surfaced explicitly at claim C3, which it refutes. -/
def pyFloatOfCleaned (l : List Char) : Option ℚ :=
  let intPart := l.takeWhile fun c => ¬ c = '.'
  let fracPart := (l.dropWhile fun c => ¬ c = '.').drop 1
  if l.all (fun c => c.isDigit || c = '.') ∧ l.any Char.isDigit ∧ l.count '.' ≤ 1 then
    some (mkRat (digitsVal intPart * 10 ^ fracPart.length + digitsVal fracPart)
      (10 ^ fracPart.length))
  else
    none

/-- `CommodityScraper.parse_price` on an actual string argument:
`clean = re.sub(r'[^\d.,]', '', price_text).replace(',', '')`, then
`float(clean) if clean else None`, with `ValueError` caught (yielding
`None` after a warning). -/
def parse_price_str (price_text : String) : Option ℚ :=
  let clean :=
    ((price_text.data.filter fun c => c.isDigit || c = '.' || c = ',').filter
      fun c => ¬ c = ',')
  if clean.isEmpty then none else pyFloatOfCleaned clean

/-- The exception a run can die of: `re.sub` applied to a non-string raises
`TypeError`, which `except (ValueError, AttributeError)` does not catch. -/
inductive PyErr where
  | typeError
  deriving DecidableEq, Repr

deriving instance DecidableEq for Except

/-- `CommodityScraper.parse_price` as called by the scanner, on the value
`extract_price_from_cell` produced: on a `str` it runs the cleaning
pipeline; on `None` or a `Tag` the first statement `re.sub(...)` raises
`TypeError`, uncaught by the local handler. -/
def parse_price : Option PyVal → Except PyErr (Option ℚ)
  | some (.str s) => .ok (parse_price_str s)
  | _ => .error .typeError

/-- `CommodityScraper.clean_commodity_name`:
`re.split(r'\n|\r', raw_name)[0].strip()` followed by
`re.sub(r'[^\w\s-]', '', name).strip()`. -/
def clean_commodity_name (raw_name : String) : String :=
  ⟨pyTrim ((pyTrim (raw_name.data.takeWhile notLineBreak)).filter keepNameChar)⟩

/-- `CommodityScraper.is_target_commodity`: first configured target whose
lowercase form is a substring of the lowercase cleaned name. -/
def is_target_commodity (targets : List String) (name : String) : Option String :=
  match targets with
  | [] => none
  | target :: rest =>
    if pyIn (pyLower target) (pyLower name) then some target
    else is_target_commodity rest name

/-- The `CommodityPrice` dataclass. The run timestamp is an abstract `Nat`;
`currency` and `unit` keep their fixed defaults. -/
structure CommodityPrice where
  name : String
  price : ℚ
  timestamp : ℕ
  currency : String := "USD"
  unit : String := "per tonne"
  deriving DecidableEq, Repr

/-- The result mapping, as the association list of a Python `dict` in
iteration order. -/
abbrev Dict := List (String × CommodityPrice)

/-- `results[k]` lookup. -/
def dictLookup (k : String) : Dict → Option CommodityPrice
  | [] => none
  | (k', v) :: rest => if k' = k then some v else dictLookup k rest

/-- `results[k] = v`: overwrite in place when the key is present, append
otherwise (Python `dict` assignment). -/
def dictInsert (m : Dict) (k : String) (v : CommodityPrice) : Dict :=
  match m with
  | [] => [(k, v)]
  | (k', v') :: rest =>
    if k' = k then (k, v) :: rest else (k', v') :: dictInsert rest k v

/-- One row of the inner loop of `scrape_all_tables`: a row is the list of
its cells (`row.find_all(['td', 'th'])`), each cell the forest of its
children. Rows with fewer than two cells are skipped; otherwise the label
is cleaned and matched, the price extracted and parsed, and a record
written when the parse produced a value. -/
def processRow (targets : List String) (ts : ℕ) (m : Dict) (row : List Forest) :
    Except PyErr Dict :=
  match row with
  | c0 :: c1 :: _ =>
    let raw_name := getTextStrip c0
    let name := clean_commodity_name raw_name
    match is_target_commodity targets name with
    | none => .ok m
    | some target =>
      match parse_price (extract_price_from_cell c1) with
      | .error e => .error e
      | .ok none => .ok m
      | .ok (some price_value) =>
        .ok (dictInsert m target
          { name := target, price := price_value, timestamp := ts })
  | _ => .ok m

/-- The row loop `for row in rows[1:]`, threading the result dict and
propagating an uncaught exception. -/
def processRows (targets : List String) (ts : ℕ) (m : Dict) :
    List (List Forest) → Except PyErr Dict
  | [] => .ok m
  | row :: rest =>
    match processRow targets ts m row with
    | .error e => .error e
    | .ok m' => processRows targets ts m' rest

/-- One table of `scrape_all_tables`: a table is its list of rows
(`table.find_all('tr')`). Tables with fewer than two rows are skipped, and
the first row (the header) is never scanned. -/
def scanTable (targets : List String) (ts : ℕ) (m : Dict) (table : List (List Forest)) :
    Except PyErr Dict :=
  if table.length < 2 then .ok m
  else processRows targets ts m (table.drop 1)

/-- The table loop of `scrape_all_tables`. -/
def scanTables (targets : List String) (ts : ℕ) (m : Dict) :
    List (List (List Forest)) → Except PyErr Dict
  | [] => .ok m
  | table :: rest =>
    match scanTable targets ts m table with
    | .error e => .error e
    | .ok m' => scanTables targets ts m' rest

/-- `CommodityScraper.scrape_all_tables` over a fetched document, given as
its list of tables (`soup.find_all('table')`): start from the empty dict
and scan every table. An uncaught `TypeError` escapes this function. -/
def scrape_all_tables (targets : List String) (ts : ℕ)
    (doc : List (List (List Forest))) : Except PyErr Dict :=
  scanTables targets ts [] doc

/-- `CommodityScraper.scrape_commodities` after a successful fetch: run the
scan; the surrounding `except Exception` turns any escaped exception into
an empty result mapping. -/
def scrape_commodities (targets : List String) (ts : ℕ)
    (doc : List (List (List Forest))) : Dict :=
  match scrape_all_tables targets ts doc with
  | .ok m => m
  | .error _ => []

/-- The default target list of the source. -/
def defaultTargets : List String := ["Lithium", "Lead", "Cobalt"]

example : parse_price_str "1,234.50" = some (mkRat 2469 2) := by decide
example : (mkRat 2469 2 : ℚ) = 2469 / 2 := by norm_num [Rat.mkRat_eq_div]
example : parse_price_str "N/A" = none := by decide
example : clean_commodity_name "Cobalt*\nrefined" = "Cobalt" := by decide
example : is_target_commodity ["Cobalt"] "COBALT ORE" = some "Cobalt" := by decide

/-! ## Lemmas about trimming and cleaning -/

theorem head?_dropWhile_false {α : Type} (p : α → Bool) :
    ∀ (l : List α) (a : α), (l.dropWhile p).head? = some a → p a = false := by
  intro l
  induction l with
  | nil => intro a h; simp [List.dropWhile] at h
  | cons c rest ih =>
    intro a h
    rw [List.dropWhile_cons] at h
    by_cases hc : p c
    · exact ih a (by simpa [hc] using h)
    · simp [hc] at h
      subst h
      simpa using hc

theorem dropWhile_eq_self_of_head? {α : Type} (p : α → Bool) (l : List α)
    (h : ∀ a, l.head? = some a → p a = false) : l.dropWhile p = l := by
  cases l with
  | nil => rfl
  | cons c rest => simp [List.dropWhile_cons, h c rfl]

theorem head?_append_left {α : Type} (x t : List α) (hx : x ≠ []) :
    (x ++ t).head? = x.head? := by
  cases x with
  | nil => exact absurd rfl hx
  | cons c rest => rfl

/-- Front-trimming an already right-then-left trimmed list changes nothing. -/
theorem dropWhile_rdropWhile_dropWhile {α : Type} (p : α → Bool) (l : List α) :
    (List.rdropWhile p (l.dropWhile p)).dropWhile p
      = List.rdropWhile p (l.dropWhile p) := by
  apply dropWhile_eq_self_of_head?
  intro a ha
  obtain ⟨t, ht⟩ := List.rdropWhile_prefix p (l := l.dropWhile p)
  have hne : List.rdropWhile p (l.dropWhile p) ≠ [] := by
    intro hnil
    rw [hnil] at ha
    simp at ha
  have h2 : (l.dropWhile p).head? = some a := by
    rw [← ht, head?_append_left _ _ hne]
    exact ha
  exact head?_dropWhile_false p l a h2

/-- Python `strip()` is idempotent. -/
theorem pyTrim_idem (l : List Char) : pyTrim (pyTrim l) = pyTrim l := by
  show List.rdropWhile pyIsSpace ((List.rdropWhile pyIsSpace
    (l.dropWhile pyIsSpace)).dropWhile pyIsSpace) = _
  rw [dropWhile_rdropWhile_dropWhile, List.rdropWhile_idempotent]
  rfl

theorem mem_pyTrim {a : Char} {l : List Char} (h : a ∈ pyTrim l) : a ∈ l := by
  rw [pyTrim] at h
  exact (List.dropWhile_suffix pyIsSpace).sublist.mem
    ((List.rdropWhile_prefix pyIsSpace _).sublist.mem h)

/-- The character list of a cleaned name, unfolded once. -/
theorem clean_commodity_name_data (L : String) :
    (clean_commodity_name L).data
      = pyTrim ((pyTrim (L.data.takeWhile notLineBreak)).filter keepNameChar) := rfl

/-- Every character of a cleaned name is kept by the strip regex and is not
a line break. -/
theorem clean_commodity_name_chars {c : Char} {L : String}
    (h : c ∈ (clean_commodity_name L).data) :
    keepNameChar c = true ∧ notLineBreak c = true := by
  rw [clean_commodity_name_data] at h
  have h1 : c ∈ (pyTrim (L.data.takeWhile notLineBreak)).filter keepNameChar :=
    mem_pyTrim h
  refine ⟨List.of_mem_filter h1, ?_⟩
  exact List.mem_takeWhile_imp (mem_pyTrim (List.mem_filter.mp h1).1)

/-- `clean_commodity_name` is idempotent. -/
theorem clean_commodity_name_idem (L : String) :
    clean_commodity_name (clean_commodity_name L) = clean_commodity_name L := by
  apply String.ext
  have htake : (clean_commodity_name L).data.takeWhile notLineBreak
      = (clean_commodity_name L).data :=
    List.takeWhile_eq_self_iff.mpr fun x hx => by
      simpa using (clean_commodity_name_chars hx).2
  have htrim : pyTrim (clean_commodity_name L).data = (clean_commodity_name L).data := by
    rw [clean_commodity_name_data, pyTrim_idem]
  have hfilter : (clean_commodity_name L).data.filter keepNameChar
      = (clean_commodity_name L).data :=
    List.filter_eq_self.mpr fun x hx => by
      simpa using (clean_commodity_name_chars hx).1
  rw [clean_commodity_name_data (clean_commodity_name L), htake, htrim, hfilter, htrim]

/-! ## Derived characterizations of the scanner -/

/-- The outcome of one scanned row, independent of the dict being built:
`.error` when the uncaught `TypeError` fires, `.ok none` when the row is
skipped, and `.ok (some (t, v))` when the row writes a record for target
`t` with price `v`. -/
def rowStep (targets : List String) (row : List Forest) :
    Except PyErr (Option (String × ℚ)) :=
  match row with
  | c0 :: c1 :: _ =>
    match is_target_commodity targets (clean_commodity_name (getTextStrip c0)) with
    | none => .ok none
    | some target =>
      match parse_price (extract_price_from_cell c1) with
      | .error e => .error e
      | .ok none => .ok none
      | .ok (some v) => .ok (some (target, v))
  | _ => .ok none

theorem processRow_eq (targets : List String) (ts : ℕ) (m : Dict) (row : List Forest) :
    processRow targets ts m row =
      match rowStep targets row with
      | .error e => .error e
      | .ok none => .ok m
      | .ok (some (t, v)) =>
        .ok (dictInsert m t { name := t, price := v, timestamp := ts }) := by
  cases row with
  | nil => rfl
  | cons c0 rest =>
    cases rest with
    | nil => rfl
    | cons c1 rest2 =>
      simp only [processRow, rowStep]
      cases is_target_commodity targets (clean_commodity_name (getTextStrip c0)) with
      | none => rfl
      | some target =>
        cases parse_price (extract_price_from_cell c1) with
        | error e => rfl
        | ok o =>
          cases o with
          | none => rfl
          | some v => rfl

/-- The keys of the result dict, in iteration order. -/
def dictKeys (m : Dict) : List String := m.map Prod.fst

theorem dictLookup_dictInsert (m : Dict) (k k' : String) (v : CommodityPrice) :
    dictLookup k (dictInsert m k' v) = if k' = k then some v else dictLookup k m := by
  induction m with
  | nil => simp [dictInsert, dictLookup]
  | cons kv rest ih =>
    obtain ⟨a, b⟩ := kv
    by_cases hak : a = k'
    · subst hak
      by_cases hk : a = k <;> simp [dictInsert, dictLookup, hk]
    · by_cases hk : a = k
      · subst hk
        have : ¬ k' = a := fun h => hak h.symm
        simp [dictInsert, dictLookup, hak, this]
      · simp [dictInsert, dictLookup, hak, hk, ih]

theorem dictKeys_dictInsert (m : Dict) (k : String) (v : CommodityPrice) :
    dictKeys (dictInsert m k v)
      = if k ∈ dictKeys m then dictKeys m else dictKeys m ++ [k] := by
  induction m with
  | nil => simp [dictInsert, dictKeys]
  | cons kv rest ih =>
    obtain ⟨a, b⟩ := kv
    by_cases hak : a = k
    · subst hak
      simp [dictInsert, dictKeys]
    · have hka : ¬ k = a := fun h => hak h.symm
      have hstep : dictInsert ((a, b) :: rest) k v = (a, b) :: dictInsert rest k v := by
        simp [dictInsert, hak]
      have hcons : dictKeys ((a, b) :: dictInsert rest k v)
          = a :: dictKeys (dictInsert rest k v) := rfl
      rw [hstep, hcons, ih]
      have hmemcons : k ∈ dictKeys ((a, b) :: rest) ↔ k ∈ dictKeys rest := by
        simp [dictKeys, List.mem_cons, hka]
      by_cases hmem : k ∈ dictKeys rest
      · rw [if_pos hmem, if_pos (hmemcons.mpr hmem)]
        rfl
      · rw [if_neg hmem, if_neg (fun h => hmem (hmemcons.mp h))]
        rfl

theorem dictKeys_nodup_dictInsert {m : Dict} (k : String) (v : CommodityPrice)
    (h : (dictKeys m).Nodup) : (dictKeys (dictInsert m k v)).Nodup := by
  rw [dictKeys_dictInsert]
  by_cases hmem : k ∈ dictKeys m
  · simpa [hmem] using h
  · rw [if_neg hmem, List.nodup_append]
    exact ⟨h, List.nodup_singleton _, by
      intro x hx hk
      simp at hk
      subst hk
      exact hmem hx⟩

/-- Membership of a key in the result dict is preserved in the lookup sense:
a key outside `dictKeys m` looks up to `none`. -/
theorem dictLookup_eq_none_of_not_mem {m : Dict} {k : String}
    (h : k ∉ dictKeys m) : dictLookup k m = none := by
  induction m with
  | nil => rfl
  | cons kv rest ih =>
    obtain ⟨a, b⟩ := kv
    have h1 : ¬ a = k := by
      intro hh
      exact h (by simp [dictKeys]; exact Or.inl hh.symm)
    have h2 : k ∉ dictKeys rest := by
      intro hh
      exact h (by simp [dictKeys]; exact Or.inr (by simpa [dictKeys] using hh))
    simp [dictLookup, h1, ih h2]

/-- The price, if any, that the rows `rs` (in scan order) leave recorded for
target `k`: the last successful write wins; `none` when no row writes `k`. -/
def lastWriteFor (targets : List String) (k : String) :
    List (List Forest) → Option ℚ
  | [] => none
  | row :: rest =>
    match lastWriteFor targets k rest with
    | some v => some v
    | none =>
      match rowStep targets row with
      | .ok (some (t, v)) => if t = k then some v else none
      | _ => none

/-- The data rows a document scan visits, in scan order: for each table of
at least two rows, its rows after the header. -/
def scannedRows : List (List (List Forest)) → List (List Forest)
  | [] => []
  | table :: rest => (if table.length < 2 then [] else table.drop 1) ++ scannedRows rest

theorem lastWriteFor_append (targets : List String) (k : String)
    (xs ys : List (List Forest)) :
    lastWriteFor targets k (xs ++ ys)
      = match lastWriteFor targets k ys with
        | some v => some v
        | none => lastWriteFor targets k xs := by
  induction xs with
  | nil =>
    rw [List.nil_append]
    cases h : lastWriteFor targets k ys <;> simp [lastWriteFor, h]
  | cons row rest ih =>
    have hcons : ∀ (zs : List (List Forest)),
        lastWriteFor targets k (row :: zs)
          = match lastWriteFor targets k zs with
            | some v => some v
            | none =>
              match rowStep targets row with
              | .ok (some (t, v)) => if t = k then some v else none
              | _ => none := fun zs => rfl
    rw [List.cons_append, hcons, hcons, ih]
    cases h : lastWriteFor targets k ys <;>
      cases h2 : lastWriteFor targets k rest <;> simp

/-- Master correspondence for the row loop: after a successful pass over
`rs` starting from dict `m`, a key's record is determined by the last
successful write among `rs`, falling back to the incoming dict. -/
theorem processRows_ok_lookup (targets : List String) (ts : ℕ) :
    ∀ (rs : List (List Forest)) (m m' : Dict),
      processRows targets ts m rs = .ok m' →
      ∀ k, dictLookup k m'
        = match lastWriteFor targets k rs with
          | some v => some { name := k, price := v, timestamp := ts }
          | none => dictLookup k m := by
  intro rs
  induction rs with
  | nil =>
    intro m m' h k
    simp [processRows] at h
    subst h
    rfl
  | cons row rest ih =>
    intro m m' h k
    rw [processRows] at h
    cases hpr : processRow targets ts m row with
    | error e => rw [hpr] at h; exact absurd h (by simp)
    | ok m1 =>
      rw [hpr] at h
      have hrow := processRow_eq targets ts m row
      rw [hpr] at hrow
      have hlw : lastWriteFor targets k (row :: rest)
          = match lastWriteFor targets k rest with
            | some v => some v
            | none =>
              match rowStep targets row with
              | .ok (some (t, v)) => if t = k then some v else none
              | _ => none := rfl
      cases hrs : rowStep targets row with
      | error e =>
        rw [hrs] at hrow
        exact absurd hrow (by simp)
      | ok o =>
        rw [hrs] at hrow
        cases o with
        | none =>
          simp only [Except.ok.injEq] at hrow
          subst hrow
          have hstep : lastWriteFor targets k (row :: rest)
              = lastWriteFor targets k rest := by
            rw [hlw, hrs]
            cases lastWriteFor targets k rest <;> rfl
          rw [hstep]
          exact ih m1 m' h k
        | some tv =>
          obtain ⟨t, v⟩ := tv
          simp only [Except.ok.injEq] at hrow
          have hm1 : m1 = dictInsert m t { name := t, price := v, timestamp := ts } :=
            hrow
          subst hm1
          have ihh := ih _ m' h k
          cases hlr : lastWriteFor targets k rest with
          | some v' =>
            rw [hlr] at ihh
            have hstep : lastWriteFor targets k (row :: rest) = some v' := by
              rw [hlw, hlr]
            rw [hstep]
            exact ihh
          | none =>
            rw [hlr] at ihh
            have hstep : lastWriteFor targets k (row :: rest)
                = if t = k then some v else none := by
              rw [hlw, hlr, hrs]
            rw [hstep, dictLookup_dictInsert] at *
            by_cases htk : t = k
            · subst htk
              rw [if_pos rfl] at ihh ⊢
              exact ihh
            · rw [if_neg htk] at ihh ⊢
              exact ihh

/-- The row loop preserves distinctness of the result keys. -/
theorem processRows_ok_nodup (targets : List String) (ts : ℕ) :
    ∀ (rs : List (List Forest)) (m m' : Dict),
      processRows targets ts m rs = .ok m' →
      (dictKeys m).Nodup → (dictKeys m').Nodup := by
  intro rs
  induction rs with
  | nil =>
    intro m m' h hn
    simp [processRows] at h
    subst h
    exact hn
  | cons row rest ih =>
    intro m m' h hn
    rw [processRows] at h
    cases hpr : processRow targets ts m row with
    | error e => rw [hpr] at h; exact absurd h (by simp)
    | ok m1 =>
      rw [hpr] at h
      have hrow := processRow_eq targets ts m row
      rw [hpr] at hrow
      cases hrs : rowStep targets row with
      | error e => rw [hrs] at hrow; exact absurd hrow (by simp)
      | ok o =>
        rw [hrs] at hrow
        cases o with
        | none =>
          simp only [Except.ok.injEq] at hrow
          subst hrow
          exact ih m1 m' h hn
        | some tv =>
          obtain ⟨t, v⟩ := tv
          simp only [Except.ok.injEq] at hrow
          have hm1 : m1 = dictInsert m t { name := t, price := v, timestamp := ts } :=
            hrow
          subst hm1
          exact ih _ m' h (dictKeys_nodup_dictInsert _ _ hn)

/-- Master correspondence for the table loop: after a successful scan of
`doc` starting from dict `m`, a key's record is determined by the last
successful write among the scanned rows of the document. -/
theorem scanTables_ok_lookup (targets : List String) (ts : ℕ) :
    ∀ (doc : List (List (List Forest))) (m m' : Dict),
      scanTables targets ts m doc = .ok m' →
      ∀ k, dictLookup k m'
        = match lastWriteFor targets k (scannedRows doc) with
          | some v => some { name := k, price := v, timestamp := ts }
          | none => dictLookup k m := by
  intro doc
  induction doc with
  | nil =>
    intro m m' h k
    simp [scanTables] at h
    subst h
    rfl
  | cons table rest ih =>
    intro m m' h k
    rw [scanTables] at h
    have happ := lastWriteFor_append targets k
      (if table.length < 2 then [] else table.drop 1) (scannedRows rest)
    have hsc : scannedRows (table :: rest)
        = (if table.length < 2 then [] else table.drop 1) ++ scannedRows rest := rfl
    by_cases hlen : table.length < 2
    · have hst : scanTable targets ts m table = .ok m := by
        simp [scanTable, hlen]
      rw [hst] at h
      have ihh := ih m m' h k
      rw [hsc, if_pos hlen, List.nil_append]
      exact ihh
    · have hst : scanTable targets ts m table
          = processRows targets ts m (table.drop 1) := by
        simp [scanTable, hlen]
      rw [hst] at h
      cases hps : processRows targets ts m (table.drop 1) with
      | error e => rw [hps] at h; exact absurd h (by simp)
      | ok m1 =>
        rw [hps] at h
        have hrows := processRows_ok_lookup targets ts (table.drop 1) m m1 hps k
        have ihh := ih m1 m' h k
        rw [hsc, if_neg hlen]
        rw [if_neg hlen] at happ
        rw [happ]
        cases hls : lastWriteFor targets k (scannedRows rest) with
        | some v =>
          rw [hls] at ihh
          exact ihh
        | none =>
          rw [hls] at ihh
          rw [ihh]
          exact hrows

/-- The table loop preserves distinctness of the result keys. -/
theorem scanTables_ok_nodup (targets : List String) (ts : ℕ) :
    ∀ (doc : List (List (List Forest))) (m m' : Dict),
      scanTables targets ts m doc = .ok m' →
      (dictKeys m).Nodup → (dictKeys m').Nodup := by
  intro doc
  induction doc with
  | nil =>
    intro m m' h hn
    simp [scanTables] at h
    subst h
    exact hn
  | cons table rest ih =>
    intro m m' h hn
    rw [scanTables] at h
    by_cases hlen : table.length < 2
    · have hst : scanTable targets ts m table = .ok m := by
        simp [scanTable, hlen]
      rw [hst] at h
      exact ih m m' h hn
    · have hst : scanTable targets ts m table
          = processRows targets ts m (table.drop 1) := by
        simp [scanTable, hlen]
      rw [hst] at h
      cases hps : processRows targets ts m (table.drop 1) with
      | error e => rw [hps] at h; exact absurd h (by simp)
      | ok m1 =>
        rw [hps] at h
        exact ih m1 m' h (processRows_ok_nodup targets ts (table.drop 1) m m1 hps hn)

/-- A last write for `k` comes from some scanned row whose `rowStep`
produced exactly that write. -/
theorem lastWriteFor_some_mem {targets : List String} {k : String} :
    ∀ {rs : List (List Forest)} {v : ℚ},
      lastWriteFor targets k rs = some v →
      ∃ row ∈ rs, rowStep targets row = .ok (some (k, v)) := by
  intro rs
  induction rs with
  | nil => intro v h; simp [lastWriteFor] at h
  | cons row rest ih =>
    intro v h
    have hlw : lastWriteFor targets k (row :: rest)
        = match lastWriteFor targets k rest with
          | some v => some v
          | none =>
            match rowStep targets row with
            | .ok (some (t, v)) => if t = k then some v else none
            | _ => none := rfl
    rw [hlw] at h
    cases hlr : lastWriteFor targets k rest with
    | some v' =>
      rw [hlr] at h
      simp at h
      subst h
      obtain ⟨r, hr, hstep⟩ := ih hlr
      exact ⟨r, List.mem_cons_of_mem _ hr, hstep⟩
    | none =>
      rw [hlr] at h
      cases hrs : rowStep targets row with
      | error e => rw [hrs] at h; simp at h
      | ok o =>
        rw [hrs] at h
        cases o with
        | none => simp at h
        | some tv =>
          obtain ⟨t, w⟩ := tv
          by_cases htk : t = k
          · subst htk
            simp at h
            subst h
            exact ⟨row, List.mem_cons_self _ _, hrs⟩
          · simp [htk] at h

/-- A matched target always comes from the configured list. -/
theorem is_target_commodity_mem {targets : List String} {name t : String}
    (h : is_target_commodity targets name = some t) : t ∈ targets := by
  induction targets with
  | nil => simp [is_target_commodity] at h
  | cons u rest ih =>
    rw [is_target_commodity] at h
    by_cases hu : pyIn (pyLower u) (pyLower name)
    · rw [if_pos hu] at h
      simp at h
      subst h
      exact List.mem_cons_self _ _
    · rw [if_neg hu] at h
      exact List.mem_cons_of_mem _ (ih h)

/-- A successful write comes from a matched target and a successfully
parsed price string. -/
theorem rowStep_ok_some {targets : List String} {row : List Forest}
    {k : String} {v : ℚ} (h : rowStep targets row = .ok (some (k, v))) :
    k ∈ targets ∧ ∃ s : String, parse_price_str s = some v := by
  match row with
  | [] => simp [rowStep] at h
  | [c] => simp [rowStep] at h
  | c0 :: c1 :: rest =>
    rw [rowStep] at h
    cases hit : is_target_commodity targets (clean_commodity_name (getTextStrip c0)) with
    | none => rw [hit] at h; simp at h
    | some target =>
      rw [hit] at h
      cases hp : parse_price (extract_price_from_cell c1) with
      | error e => rw [hp] at h; simp at h
      | ok o =>
        rw [hp] at h
        cases o with
        | none => simp at h
        | some w =>
          simp at h
          obtain ⟨htk, hwv⟩ := h
          subst htk
          subst hwv
          refine ⟨is_target_commodity_mem hit, ?_⟩
          cases hx : extract_price_from_cell c1 with
          | none => rw [hx] at hp; simp [parse_price] at hp
          | some pv =>
            cases pv with
            | tag e => rw [hx] at hp; simp [parse_price] at hp
            | str s =>
              rw [hx] at hp
              simp [parse_price] at hp
              exact ⟨s, hp⟩

/-- Parsed prices are non-negative: the cleaned string has no sign, so the
resulting rational is a quotient of naturals. -/
theorem pyFloatOfCleaned_nonneg {l : List Char} {v : ℚ}
    (h : pyFloatOfCleaned l = some v) : 0 ≤ v := by
  rw [pyFloatOfCleaned] at h
  by_cases hc : l.all (fun c => c.isDigit || c = '.') ∧ l.any Char.isDigit ∧
      l.count '.' ≤ 1
  · rw [if_pos hc] at h
    simp at h
    rw [← h, Rat.mkRat_eq_div]
    positivity
  · rw [if_neg hc] at h
    simp at h

theorem parse_price_str_nonneg {s : String} {v : ℚ}
    (h : parse_price_str s = some v) : 0 ≤ v := by
  rw [parse_price_str] at h
  split at h
  · exact absurd h (by simp)
  · exact pyFloatOfCleaned_nonneg h

/-! ## Specification-side definitions (for refinement comparisons) -/

/-- The parsing algorithm exactly as the specification words it: remove
every character that is not a digit, a period, or a comma; remove commas
entirely; if the remaining string is empty, fail; otherwise parse as a
floating-point number. -/
def specParsePrice (rawText : String) : Option ℚ :=
  let kept := rawText.data.filter fun c => c.isDigit || c = '.' || c = ','
  let noCommas := kept.filter fun c => ¬ c = ','
  if noCommas = [] then none else pyFloatOfCleaned noCommas

/-- The cleaning algorithm exactly as claim C8 words it: the text preceding
the first line break, trimmed of surrounding whitespace, with all
characters other than word characters, whitespace, and hyphens removed —
and nothing more (no final trim). -/
def claimCleanC8 (L : String) : String :=
  ⟨(pyTrim (L.data.takeWhile notLineBreak)).filter keepNameChar⟩

/-! ## Claim C4 -/

/-- C4: for every raw text string, `parse_price` removes every character
that is not a digit, period, or comma, then removes all commas, fails on an
empty remainder, and otherwise parses the remainder as a (floating-point)
number; in particular `parse("1,234.50") = 1234.5` and
`parse("N/A") = none`. -/
theorem c4_parse_price_algorithm :
    (∀ s : String, parse_price_str s = specParsePrice s) ∧
    parse_price_str "1,234.50" = some (2469 / 2 : ℚ) ∧
    parse_price_str "N/A" = none := by
  refine ⟨?_, ?_, by decide⟩
  · intro s
    simp [parse_price_str, specParsePrice, List.isEmpty_iff]
  · have h1 : parse_price_str "1,234.50" = some (mkRat 2469 2) := by decide
    have h2 : (mkRat 2469 2 : ℚ) = 2469 / 2 := by norm_num [Rat.mkRat_eq_div]
    rw [h1, h2]

/-! ## Claim C5 -/

theorem is_target_commodity_some_iff (targets : List String) (name t : String) :
    is_target_commodity targets name = some t ↔
      ∃ pre post, targets = pre ++ t :: post ∧
        pyIn (pyLower t) (pyLower name) = true ∧
        ∀ u ∈ pre, pyIn (pyLower u) (pyLower name) = false := by
  induction targets with
  | nil =>
    simp only [is_target_commodity]
    constructor
    · intro h; exact absurd h (by simp)
    · rintro ⟨pre, post, hsplit, -, -⟩
      exact absurd hsplit.symm (by simp)
  | cons u rest ih =>
    rw [is_target_commodity]
    by_cases hu : pyIn (pyLower u) (pyLower name) = true
    · rw [if_pos hu]
      constructor
      · intro h
        have hut : u = t := by simpa using h
        subst hut
        exact ⟨[], rest, rfl, hu, by simp⟩
      · rintro ⟨pre, post, hsplit, hmatched, hpre⟩
        cases pre with
        | nil =>
          have : u = t := by simpa using congrArg (List.head? ·) hsplit
          rw [this]
        | cons a pre' =>
          have hua : u = a := by simpa using congrArg (List.head? ·) hsplit
          subst hua
          exact absurd (hpre u (List.mem_cons_self _ _)) (by simp [hu])
    · rw [if_neg hu]
      rw [ih]
      have hu' : pyIn (pyLower u) (pyLower name) = false := by
        simpa using hu
      constructor
      · rintro ⟨pre, post, hsplit, hmatched, hpre⟩
        refine ⟨u :: pre, post, by rw [hsplit]; rfl, hmatched, ?_⟩
        intro x hx
        rcases List.mem_cons.mp hx with h | h
        · rw [h]; exact hu'
        · exact hpre x h
      · rintro ⟨pre, post, hsplit, hmatched, hpre⟩
        cases pre with
        | nil =>
          have : u = t := by simpa using congrArg (List.head? ·) hsplit
          rw [this] at hu'
          rw [hmatched] at hu'
          exact absurd hu' (by simp)
        | cons a pre' =>
          have hua : u = a := by simpa using congrArg (List.head? ·) hsplit
          have hrest : rest = pre' ++ t :: post := by
            have := congrArg (List.tail ·) hsplit
            simpa using this
          exact ⟨pre', post, hrest, hmatched,
            fun x hx => hpre x (List.mem_cons_of_mem _ hx)⟩

theorem is_target_commodity_none_iff (targets : List String) (name : String) :
    is_target_commodity targets name = none ↔
      ∀ u ∈ targets, pyIn (pyLower u) (pyLower name) = false := by
  induction targets with
  | nil => simp [is_target_commodity]
  | cons u rest ih =>
    rw [is_target_commodity]
    by_cases hu : pyIn (pyLower u) (pyLower name) = true
    · rw [if_pos hu]
      simp only [List.mem_cons]
      constructor
      · intro h; exact absurd h (by simp)
      · intro h
        have := h u (Or.inl rfl)
        rw [hu] at this
        exact absurd this (by simp)
    · rw [if_neg hu]
      rw [ih]
      have hu' : pyIn (pyLower u) (pyLower name) = false := by simpa using hu
      constructor
      · intro h x hx
        rcases List.mem_cons.mp hx with hh | hh
        · rw [hh]; exact hu'
        · exact h x hh
      · intro h x hx
        exact h x (List.mem_cons_of_mem _ hx)

/-- C5: matching succeeds exactly when some target's lowercase form is a
substring of the lowercase label; the first matching target in list order
wins; with no match it signals none; `match("COBALT ORE", ["Cobalt"]) =
"Cobalt"`. -/
theorem c5_match_first_caseless_substring :
    (∀ (targets : List String) (name t : String),
      is_target_commodity targets name = some t ↔
        ∃ pre post, targets = pre ++ t :: post ∧
          pyIn (pyLower t) (pyLower name) = true ∧
          ∀ u ∈ pre, pyIn (pyLower u) (pyLower name) = false) ∧
    (∀ (targets : List String) (name : String),
      is_target_commodity targets name = none ↔
        ∀ u ∈ targets, pyIn (pyLower u) (pyLower name) = false) ∧
    is_target_commodity ["Cobalt"] "COBALT ORE" = some "Cobalt" :=
  ⟨is_target_commodity_some_iff, is_target_commodity_none_iff, by decide⟩

/-! ## Claim C6 -/

/-- C6: a table with fewer than two rows is skipped; the first row of a
scanned table is never treated as data (the scan result does not depend on
it); a row with fewer than two cells is skipped; a one-row table
contributes zero records. -/
theorem c6_structural_skips :
    (∀ (targets : List String) (ts : ℕ) (m : Dict) (table : List (List Forest)),
      table.length < 2 → scanTable targets ts m table = .ok m) ∧
    (∀ (targets : List String) (ts : ℕ) (m : Dict) (r r' : List Forest)
      (rs : List (List Forest)),
      scanTable targets ts m (r :: rs) = scanTable targets ts m (r' :: rs)) ∧
    (∀ (targets : List String) (ts : ℕ) (m : Dict) (row : List Forest),
      row.length < 2 → processRow targets ts m row = .ok m) ∧
    (∀ (targets : List String) (ts : ℕ) (m : Dict) (row : List (List Forest)),
      row.length = 1 → scanTable targets ts m row = .ok m) := by
  refine ⟨fun targets ts m table h => by simp [scanTable, h], ?_, ?_, ?_⟩
  · intro targets ts m r r' rs
    simp [scanTable]
  · intro targets ts m row h
    match row with
    | [] => rfl
    | [c] => rfl
    | c0 :: c1 :: rest => exact absurd h (by simp)
  · intro targets ts m row h
    simp [scanTable, h]

/-- Witness for C6 at concrete inputs. -/
theorem c6_structural_skips_witness :
    scanTable defaultTargets 0 [] [[Forest.textCons "only row" .nil]] = .ok [] ∧
    processRow defaultTargets 0 [] [Forest.textCons "one cell" .nil] = .ok [] :=
  ⟨c6_structural_skips.1 defaultTargets 0 [] _ (by decide),
   c6_structural_skips.2.2.1 defaultTargets 0 [] _ (by decide)⟩

/-! ## Claim C8 -/

/-- C8 fails on the code as stated: the code trims once more after the
character strip. On `"a ."` the claimed value keeps a trailing space, the
code's value does not. -/
theorem c8_counterexample :
    clean_commodity_name "a ." = "a" ∧ claimCleanC8 "a ." = "a " ∧
    clean_commodity_name "a ." ≠ claimCleanC8 "a ." := by
  refine ⟨by decide, by decide, by decide⟩

/-- C8 (amended): `clean(L)` equals the claim's described value trimmed of
surrounding whitespace once more, and it contains no line break and no
character outside word characters, whitespace, and hyphens. -/
theorem c8_clean_algorithm (L : String) :
    clean_commodity_name L = ⟨pyTrim (claimCleanC8 L).data⟩ ∧
    ((clean_commodity_name L).data.all fun c => keepNameChar c && notLineBreak c)
      = true := by
  refine ⟨rfl, ?_⟩
  rw [List.all_eq_true]
  intro c hc
  have h := clean_commodity_name_chars hc
  simp [h.1, h.2]

/-! ## Claim C10 -/

/-- C10: `clean_commodity_name` is idempotent — cutting at the first line
break, trimming, stripping characters, and trimming again changes an
already-cleaned label no further. -/
theorem c10_clean_idempotent (L : String) :
    clean_commodity_name (clean_commodity_name L) = clean_commodity_name L :=
  clean_commodity_name_idem L

/-! ## Concrete document fixtures -/

/-- A cell whose only content is a text node. -/
def cellText (s : String) : Forest := .textCons s .nil

/-- A header row. -/
def headerRow : List Forest := [cellText "Commodity", cellText "Price"]

/-- A data row with a matching label and a parsable price. -/
def rowLithium : List Forest := [cellText "Lithium", cellText "500"]

/-- A data row whose label matches a target but whose price cell is empty:
every extraction strategy is falsy, so `extract_price_from_cell` returns
`None` and `parse_price` raises the uncaught `TypeError`. -/
def rowCobaltEmpty : List Forest := [cellText "Cobalt", .nil]

/-- One table: header, a valid Lithium row, then the aborting row. -/
def docC1 : List (List (List Forest)) := [[headerRow, rowLithium, rowCobaltEmpty]]

/-- The same document without the aborting row. -/
def docLithiumOnly : List (List (List Forest)) := [[headerRow, rowLithium]]

/-! ## Claim C1 -/

/-- C1 fails on the code: on `docC1` the Lithium row is collected first,
then the Cobalt row's price cell is empty, `extract_price_from_cell`
returns `None`, and `parse_price`'s `re.sub` raises a `TypeError` that the
local `except (ValueError, AttributeError)` does not catch. The run aborts
to the outer handler of `scrape_commodities`, which returns an empty
mapping — discarding the already-collected Lithium record, which the same
scan without the failing row does produce. -/
theorem c1_parse_failure_aborts_run :
    scrape_all_tables defaultTargets 0 docC1 = .error .typeError ∧
    scrape_commodities defaultTargets 0 docC1 = [] ∧
    scrape_commodities defaultTargets 0 docLithiumOnly
      = [("Lithium", { name := "Lithium", price := 500, timestamp := 0 })] := by
  refine ⟨by decide, by decide, by decide⟩

/-! ## Claim C2 -/

/-- A price cell containing `<span id="p">42</span>`. -/
def idPCell : Forest := .elemCons "span" (some "p") none (.textCons "42" .nil) .nil

/-- C2 fails on the code as stated: on an empty cell, strategies 1–3 fail
and strategy 4 yields the empty string, which is falsy, so the loop falls
through and `extract` returns `None` — not the cell's full visible text.
Moreover, when strategy 1 hits, `extract` returns the matched element
itself, not a raw price string. -/
theorem c2_counterexample :
    extract_price_from_cell Forest.nil = none ∧
    getTextStrip Forest.nil = "" ∧
    extract_price_from_cell idPCell
      = some (.tag ⟨"span", some "p", none, .textCons "42" .nil⟩) := by
  refine ⟨by decide, by decide, by decide⟩

/-- A found strategy-3 text contains a digit and is therefore non-empty. -/
theorem strategyThree_isEmpty_false {cell : Forest} {s : String}
    (h : strategyThree cell = some s) : s.isEmpty = false := by
  rw [strategyThree] at h
  cases hf : (findAllTag "span" cell ++ findAllTag "div" cell ++
      findAllTag "strong" cell).find? (fun e => (elemText e).data.any Char.isDigit) with
  | none => rw [hf] at h; simp at h
  | some e =>
    rw [hf] at h
    simp at h
    subst h
    have hd := List.find?_some hf
    cases he : (elemText e).data with
    | nil => rw [he] at hd; simp at hd
    | cons a l =>
      have hne : elemText e ≠ "" := by
        intro hh
        have : (elemText e).data = [] := by rw [hh]
        rw [he] at this
        exact absurd this (by simp)
      rw [Bool.eq_false_iff]
      intro htrue
      exact hne ((String.isEmpty_iff _).mp htrue)

/-- C2 (amended): `extract` tries the four strategies in order and returns
the first truthy result — the matched element itself for strategies 1 and
2, a text string for strategies 3 and 4; when strategies 1–3 yield nothing
truthy, it returns the cell's full visible text if that text is non-empty
and `none` when it is empty. -/
theorem c2_extract_strategy_order (cell : Forest) :
    (∀ e, findByIdP cell = some e → elemTruthy e = true →
      extract_price_from_cell cell = some (.tag e)) ∧
    (optTruthy ((findByIdP cell).map .tag) = false →
      ∀ e, findByClassPrice cell = some e → elemTruthy e = true →
        extract_price_from_cell cell = some (.tag e)) ∧
    (optTruthy ((findByIdP cell).map .tag) = false →
      optTruthy ((findByClassPrice cell).map .tag) = false →
      ∀ s, strategyThree cell = some s →
        extract_price_from_cell cell = some (.str s)) ∧
    (optTruthy ((findByIdP cell).map .tag) = false →
      optTruthy ((findByClassPrice cell).map .tag) = false →
      strategyThree cell = none →
      extract_price_from_cell cell =
        if getTextStrip cell = "" then none
        else some (.str (getTextStrip cell))) := by
  refine ⟨?_, ?_, ?_, ?_⟩
  · intro e h1 h2
    simp [extract_price_from_cell, firstTruthy, h1, pyTruthy, h2]
  · intro hf1 e h2 ht
    cases hid : findByIdP cell with
    | none => simp [extract_price_from_cell, firstTruthy, hid, h2, pyTruthy, ht]
    | some e1 =>
      rw [hid] at hf1
      simp [optTruthy, pyTruthy] at hf1
      simp [extract_price_from_cell, firstTruthy, hid, h2, pyTruthy, hf1, ht]
  · intro hf1 hf2 s h3
    have hse : s.isEmpty = false := strategyThree_isEmpty_false h3
    have hs : pyTruthy (.str s) = true := by
      simp [pyTruthy, hse]
    cases hid : findByIdP cell with
    | none =>
      cases hcl : findByClassPrice cell with
      | none => simp [extract_price_from_cell, firstTruthy, hid, hcl, h3, hs, hse, pyTruthy]
      | some e2 =>
        rw [hcl] at hf2
        simp [optTruthy, pyTruthy] at hf2
        simp [extract_price_from_cell, firstTruthy, hid, hcl, h3, hs, hse, hf2, pyTruthy]
    | some e1 =>
      rw [hid] at hf1
      simp [optTruthy, pyTruthy] at hf1
      cases hcl : findByClassPrice cell with
      | none =>
        simp [extract_price_from_cell, firstTruthy, hid, hcl, h3, hs, hse, hf1, pyTruthy]
      | some e2 =>
        rw [hcl] at hf2
        simp [optTruthy, pyTruthy] at hf2
        simp [extract_price_from_cell, firstTruthy, hid, hcl, h3, hs, hse, hf1, hf2, pyTruthy]
  · intro hf1 hf2 h3
    have hmain : extract_price_from_cell cell
        = firstTruthy [some (.str (getTextStrip cell))] := by
      cases hid : findByIdP cell with
      | none =>
        cases hcl : findByClassPrice cell with
        | none => simp [extract_price_from_cell, firstTruthy, hid, hcl, h3]
        | some e2 =>
          rw [hcl] at hf2
          simp [optTruthy, pyTruthy] at hf2
          simp [extract_price_from_cell, firstTruthy, hid, hcl, h3, hf2, pyTruthy]
      | some e1 =>
        rw [hid] at hf1
        simp [optTruthy, pyTruthy] at hf1
        cases hcl : findByClassPrice cell with
        | none => simp [extract_price_from_cell, firstTruthy, hid, hcl, h3, hf1, pyTruthy]
        | some e2 =>
          rw [hcl] at hf2
          simp [optTruthy, pyTruthy] at hf2
          simp [extract_price_from_cell, firstTruthy, hid, hcl, h3, hf1, hf2, pyTruthy]
    rw [hmain]
    by_cases hempty : getTextStrip cell = ""
    · simp [firstTruthy, pyTruthy, hempty, String.isEmpty_iff]
    · simp [firstTruthy, pyTruthy, hempty, String.isEmpty_iff]

/-- Witness for C2 at a concrete cell: plain text `"42"`. -/
theorem c2_extract_strategy_order_witness :
    extract_price_from_cell (Forest.textCons "42" .nil) = some (.str "42") := by
  rw [(c2_extract_strategy_order (Forest.textCons "42" .nil)).2.2.2
    (by decide) (by decide) (by decide)]
  decide

/-! ## Claim C3

The claim asserts that every materialized price is non-negative and
finite and that parse failures materialize nothing. The non-negativity
and no-record conjuncts hold and are proved below; the finiteness
conjunct is violated by the program: CPython `float` saturates to `inf`
on a decimal string denoting a value beyond the largest finite IEEE-754
double, `(2 ^ 53 - 1) * 2 ^ 971`, and `inf is not None`, so the record is
materialized with an infinite price. `c3_finite_overflow` evaluates the
scan at such an input. -/

/-- The true parts of C3: every record in the result mapping of a run has
a non-negative price, and a row whose price parses to `None` writes no
entry. (This does not settle the claim's finiteness conjunct, which the
program violates; see the section comment.) -/
theorem c3_nonneg_and_no_record_on_parse_none :
    (∀ (targets : List String) (ts : ℕ) (doc : List (List (List Forest)))
      (k : String) (rec : CommodityPrice),
      dictLookup k (scrape_commodities targets ts doc) = some rec →
      0 ≤ rec.price) ∧
    (∀ (targets : List String) (ts : ℕ) (m : Dict) (c0 c1 : Forest)
      (rest : List Forest),
      parse_price (extract_price_from_cell c1) = .ok none →
      processRow targets ts m (c0 :: c1 :: rest) = .ok m) := by
  constructor
  · intro targets ts doc k rec h
    rw [scrape_commodities] at h
    cases hsc : scrape_all_tables targets ts doc with
    | error e =>
      rw [hsc] at h
      have h' : (none : Option CommodityPrice) = some rec := h
      exact absurd h' (by simp)
    | ok m =>
      rw [hsc] at h
      have h' : dictLookup k m = some rec := h
      have hl := scanTables_ok_lookup targets ts doc [] m hsc k
      cases hlw : lastWriteFor targets k (scannedRows doc) with
      | none =>
        rw [hlw] at hl
        have hnone : dictLookup k m = none := hl
        rw [h'] at hnone
        exact absurd hnone (by simp)
      | some v =>
        rw [hlw] at hl
        have hl' : dictLookup k m = some { name := k, price := v, timestamp := ts } := hl
        rw [h'] at hl'
        have hrec : rec = { name := k, price := v, timestamp := ts } := by
          simpa using hl' 
        obtain ⟨row, hrow, hstep⟩ := lastWriteFor_some_mem hlw
        obtain ⟨hkmem, s, hps⟩ := rowStep_ok_some hstep
        have hnn := parse_price_str_nonneg hps
        rw [hrec]
        exact hnn
  · intro targets ts m c0 c1 rest h
    cases hit : is_target_commodity targets (clean_commodity_name (getTextStrip c0)) with
    | none => simp [processRow, hit]
    | some target => simp [processRow, hit, h]

/-- Witness for C3: a record produced by a concrete run has a non-negative
price, and a concrete row whose price text `"N/A"` parses to `None` writes
nothing. -/
theorem c3_nonneg_witness :
    (0 : ℚ) ≤ ({ name := "Lithium", price := 500, timestamp := 0 } : CommodityPrice).price ∧
    processRow defaultTargets 0 [] [cellText "Cobalt", cellText "N/A"] = .ok [] :=
  ⟨c3_nonneg_and_no_record_on_parse_none.1 defaultTargets 0 docLithiumOnly "Lithium"
      { name := "Lithium", price := 500, timestamp := 0 } (by decide),
   c3_nonneg_and_no_record_on_parse_none.2 defaultTargets 0 [] (cellText "Cobalt")
      (cellText "N/A") [] (by decide)⟩

/-- A 400-nines price string: its decimal value `10 ^ 400 - 1` is beyond
the largest finite IEEE-754 double, so CPython `float` of it is `inf`. -/
def hugePriceText : String := ⟨List.replicate 400 '9'⟩

/-- A row matching Lithium whose price overflows the double range. -/
def rowLithiumHuge : List Forest := [cellText "Lithium", cellText hugePriceText]

/-- A document containing only that row. -/
def docHugePrice : List (List (List Forest)) := [[headerRow, rowLithiumHuge]]

/-- The largest finite IEEE-754 double, `(2 ^ 53 - 1) * 2 ^ 971`, as a
natural number (it is an integer). -/
def maxFiniteDouble : ℕ := (2 ^ 53 - 1) * 2 ^ 971

set_option maxRecDepth 16384 in
/-- C3's finiteness conjunct fails on the code: the scan of `docHugePrice`
completes and materializes a Lithium record — nothing in the code guards
the overflow — whose price text denotes `10 ^ 400 - 1`, strictly beyond
the largest finite double. At this input the real program computes
`float("9"*400) = inf` (CPython saturates rather than raising), `inf` is
not `None`, and the stored price is infinite, not finite. The record and
its exact denoted value are evaluated here in the exact-valued model. -/
theorem c3_finite_overflow :
    dictLookup "Lithium" (scrape_commodities defaultTargets 0 docHugePrice)
      = some { name := "Lithium", price := mkRat (digitsVal hugePriceText.data) 1,
               timestamp := 0 } ∧
    digitsVal hugePriceText.data = 10 ^ 400 - 1 ∧
    maxFiniteDouble < digitsVal hugePriceText.data := by
  have hval : digitsVal hugePriceText.data
      = 9999999999999999999999999999999999999999999999999999999999999999999999999999999999999999999999999999999999999999999999999999999999999999999999999999999999999999999999999999999999999999999999999999999999999999999999999999999999999999999999999999999999999999999999999999999999999999999999999999999999999999999999999999999999999999999999999999999999999999999999999999999999999999999999999999999999999999 := by decide
  refine ⟨by decide, ?_, ?_⟩
  · rw [hval]
    norm_num
  · rw [hval, show maxFiniteDouble = (2 ^ 53 - 1) * 2 ^ 971 from rfl]
    norm_num

/-! ## Claim C9 -/

/-- C9: every key of a result mapping returned by a completed scan is an
element of the configured target list, and the record stored under a key
carries that key as its name. -/
theorem c9_keys_from_targets (targets : List String) (ts : ℕ)
    (doc : List (List (List Forest))) (m : Dict)
    (hok : scrape_all_tables targets ts doc = .ok m) :
    ∀ (k : String) (rec : CommodityPrice),
      dictLookup k m = some rec → k ∈ targets ∧ rec.name = k := by
  intro k rec h
  have hl := scanTables_ok_lookup targets ts doc [] m hok k
  cases hlw : lastWriteFor targets k (scannedRows doc) with
  | none =>
    rw [hlw] at hl
    have hnone : dictLookup k m = none := hl
    rw [h] at hnone
    exact absurd hnone (by simp)
  | some v =>
    rw [hlw] at hl
    have hl' : dictLookup k m = some { name := k, price := v, timestamp := ts } := hl
    rw [h] at hl'
    have hrec : rec = { name := k, price := v, timestamp := ts } := by
      simpa using hl' 
    obtain ⟨row, hrow, hstep⟩ := lastWriteFor_some_mem hlw
    obtain ⟨hkmem, -⟩ := rowStep_ok_some hstep
    exact ⟨hkmem, by rw [hrec]⟩

/-- Witness for C9 at a concrete run. -/
theorem c9_keys_from_targets_witness :
    "Lithium" ∈ defaultTargets ∧
    ({ name := "Lithium", price := 500, timestamp := 0 } : CommodityPrice).name
       = "Lithium" :=
  c9_keys_from_targets defaultTargets 0 docLithiumOnly
    [("Lithium", { name := "Lithium", price := 500, timestamp := 0 })]
    (by decide) "Lithium" { name := "Lithium", price := 500, timestamp := 0 }
    (by decide)

/-! ## Claim C7 -/

/-- The optional write row `row` contributes for target `k`. -/
def writeOfRow (targets : List String) (k : String) (row : List Forest) : Option ℚ :=
  match rowStep targets row with
  | .ok (some (t, v)) => if t = k then some v else none
  | _ => none

theorem getLast?_cons_shape {α : Type} (w : α) (l : List α) :
    (w :: l).getLast? = match l.getLast? with
      | some v => some v
      | none => some w := by
  cases l with
  | nil => rfl
  | cons b l' =>
    rw [List.getLast?_cons_cons]
    cases hl : (b :: l').getLast? with
    | none => exact absurd hl (by simp)
    | some v => rfl

theorem lastWriteFor_eq_getLast? (targets : List String) (k : String) :
    ∀ rs : List (List Forest),
      lastWriteFor targets k rs = (rs.filterMap (writeOfRow targets k)).getLast? := by
  intro rs
  induction rs with
  | nil => rfl
  | cons row rest ih =>
    have hlw : lastWriteFor targets k (row :: rest)
        = match lastWriteFor targets k rest with
          | some v => some v
          | none => writeOfRow targets k row := rfl
    rw [hlw, ih, List.filterMap_cons]
    cases hw : writeOfRow targets k row with
    | none =>
      cases hg : (rest.filterMap (writeOfRow targets k)).getLast? <;> simp [hw, hg]
    | some w =>
      rw [getLast?_cons_shape]
      cases hg : (rest.filterMap (writeOfRow targets k)).getLast? <;> simp [hw, hg]

/-- C7 (amended): when the scan completes without the uncaught parse-type
error, the mapping holds, for each target written by some scanned row,
exactly one record — keyed by that target and carrying the price of the
last such row in scan order. -/
theorem c7_last_write_wins (targets : List String) (ts : ℕ)
    (doc : List (List (List Forest))) (m : Dict) (t : String) (v : ℚ)
    (hok : scrape_all_tables targets ts doc = .ok m)
    (hlast : ((scannedRows doc).filterMap (writeOfRow targets t)).getLast? = some v) :
    dictLookup t m = some { name := t, price := v, timestamp := ts } ∧
      (dictKeys m).Nodup := by
  have hlw : lastWriteFor targets t (scannedRows doc) = some v := by
    rw [lastWriteFor_eq_getLast?]
    exact hlast
  have hl := scanTables_ok_lookup targets ts doc [] m hok t
  rw [hlw] at hl
  exact ⟨hl, scanTables_ok_nodup targets ts doc [] m hok (by simp [dictKeys])⟩

/-- A data row matching Lithium with price `100`. -/
def rowLith100 : List Forest := [cellText "Lithium", cellText "100"]

/-- A data row matching Lithium with price `200`. -/
def rowLith200 : List Forest := [cellText "Lithium", cellText "200"]

/-- A document with two valid Lithium rows followed by the aborting row. -/
def docC7 : List (List (List Forest)) := [[headerRow, rowLith100, rowLith200, rowCobaltEmpty]]

/-- A document with two valid Lithium rows and nothing else. -/
def docC7ok : List (List (List Forest)) := [[headerRow, rowLith100, rowLith200]]

/-- C7 fails on the code as stated: `docC7` has two rows matching Lithium
with validly parsed prices, yet a later row's empty price cell aborts the
run, so the result mapping is empty and holds no Lithium record at all. -/
theorem c7_counterexample :
    rowStep defaultTargets rowLith100 = .ok (some ("Lithium", 100)) ∧
    rowStep defaultTargets rowLith200 = .ok (some ("Lithium", 200)) ∧
    scrape_commodities defaultTargets 0 docC7 = [] ∧
    dictLookup "Lithium" (scrape_commodities defaultTargets 0 docC7) = none := by
  refine ⟨by decide, by decide, by decide, by decide⟩

/-- Witness for C7 at a concrete run with two Lithium rows: the second
row's price wins. -/
theorem c7_last_write_wins_witness :
    dictLookup "Lithium"
        [("Lithium", { name := "Lithium", price := 200, timestamp := 0 })]
      = some { name := "Lithium", price := 200, timestamp := 0 } ∧
    (dictKeys ([("Lithium",
      { name := "Lithium", price := 200, timestamp := 0 })] : Dict)).Nodup :=
  c7_last_write_wins defaultTargets 0 docC7ok
    [("Lithium", { name := "Lithium", price := 200, timestamp := 0 })]
    "Lithium" 200 (by decide) (by decide)
